import Mathlib

/-!
Verification of the RIS-file segregator (src/extract_csv_streamlit.py).

The Python program is shallowly embedded below.  Strings are modelled as
`List Char`; the two regular expressions of the source
(`EMAIL_RE = [\w\.-]+@[\w\.-]+\.\w+` and
`CORRESPONDING_AUTHOR_RE = ([^,;()]+?),\s*([\w\.-]+@[\w\.-]+\.\w+)`) are
embedded as deterministic matchers that follow Python's leftmost /
greedy / lazy backtracking semantics on these concrete patterns, as
derived below per pattern.  Python's `set` is modelled as an
insertion-ordered duplicate-free list and `dict` as an insertion-ordered
association list; `str.lower`, `str.strip`, `\w`, `\s` are modelled on
the ASCII range (the inputs of interest are ASCII).
-/

namespace Ris

/-- Model of the regex class member test for a single word character (ASCII model of Python re \w). -/
def isWordChar (c : Char) : Bool := c.isAlphanum || c = '_'

/-- Model of the regex character class of EMAIL_RE's runs: word chars, dot and hyphen. -/
def isEmailChar (c : Char) : Bool := isWordChar c || c = '.' || c = '-'

/-- Model of the name-span class in CORRESPONDING_AUTHOR_RE: anything but comma, semicolon, parenthesis. -/
def isNameChar (c : Char) : Bool := !(c = ',' || c = ';' || c = '(' || c = ')')

/-- Model of Python whitespace (str.strip default set and regex class of spacing chars), ASCII part. -/
def isPySpace (c : Char) : Bool :=
  c = ' ' || c = '\t' || c = '\n' || c = '\r' || c = '\x0b' || c = '\x0c'

/-- Model of Python str.lower on a single character (ASCII range, which is
what the tool relies on): shift an upper-case basic-latin letter down by 32,
leave any other character unchanged. -/
def lowerChar (c : Char) : Char :=
  if 65 ≤ c.toNat ∧ c.toNat ≤ 90 then Char.ofNat (c.toNat + 32) else c

/-- Model of Python str.lower over a whole string. -/
def lowerList (cs : List Char) : List Char := cs.map lowerChar

/-- Model of Python str.strip (with no argument): drop whitespace at both ends. -/
def pyStrip (cs : List Char) : List Char :=
  ((cs.dropWhile isPySpace).reverse.dropWhile isPySpace).reverse

/-- Model of Python truthiness of an optional string  -- None and the empty string are falsy. -/
def pyTruthy : Option (List Char) → Bool
  | none => false
  | some s => !s.isEmpty

/-- Boolean test that the first list is a prefix of the second. -/
def seqPrefix : List Char → List Char → Bool
  | [], _ => true
  | _ :: _, [] => false
  | a :: as, b :: bs => a = b && seqPrefix as bs

/-- Model of locating the leftmost occurrence of a (nonempty) separator:
returns the text before the occurrence and the text after it, or none if
the separator does not occur.  This backs the models of Python
`sep in s`, `s.split(sep)` and `s.replace(sep, t)`. -/
def breakSeq (sep : List Char) : List Char → Option (List Char × List Char)
  | [] => if sep.isEmpty then some ([], []) else none
  | c :: cs =>
    if seqPrefix sep (c :: cs) then some ([], (c :: cs).drop sep.length)
    else
      match breakSeq sep cs with
      | some (pre, post) => some (c :: pre, post)
      | none => none

/-- Model of the Python test `sep in s`. -/
def containsSeq (sep cs : List Char) : Bool := (breakSeq sep cs).isSome

/-- Fuel-driven worker for `splitSeq`; the fuel bounds the number of splits
and `cs.length + 1` fuel always suffices for a nonempty separator. -/
def splitSeqAux (sep : List Char) : Nat → List Char → List (List Char)
  | 0, cs => [cs]
  | fuel + 1, cs =>
    match breakSeq sep cs with
    | some (pre, post) => pre :: splitSeqAux sep fuel post
    | none => [cs]

/-- Model of Python `s.split(sep)` for a nonempty separator. -/
def splitSeq (sep cs : List Char) : List (List Char) := splitSeqAux sep (cs.length + 1) cs

/-- Joining a list of fragments with a separator; models Python `sep.join(...)`
and is the inverse used to state that splitting loses only the separators. -/
def joinSep (sep : List Char) : List (List Char) → List Char
  | [] => []
  | [x] => x
  | x :: y :: rest => x ++ sep ++ joinSep sep (y :: rest)

/-- Fuel-driven worker for `removeSeq`. -/
def removeSeqAux (sep : List Char) : Nat → List Char → List Char
  | 0, cs => cs
  | fuel + 1, cs =>
    match breakSeq sep cs with
    | some (pre, post) => pre ++ removeSeqAux sep fuel post
    | none => cs

/-- Model of Python `s.replace(sep, '')` for a nonempty separator: delete every
leftmost non-overlapping occurrence. -/
def removeSeq (sep cs : List Char) : List Char := removeSeqAux sep (cs.length + 1) cs

/-- Keep-first deduplication of a list; deterministic model of building a Python set
from an iterable and iterating over it. -/
def dedupKeepFirst : List (List Char) → List (List Char)
  | [] => []
  | x :: xs => x :: (dedupKeepFirst xs).filter (fun y => y ≠ x)

/-- Model of Python `set.add`: append the element unless already present
(insertion-ordered model of a hash set). -/
def insertUnique (l : List (List Char)) (e : List Char) : List (List Char) :=
  if e ∈ l then l else l ++ [e]

/-- Lookup in an insertion-ordered association list (model of a Python dict). -/
def lookupAssoc : List (List Char × List Char) → List Char → Option (List Char)
  | [], _ => none
  | (k, v) :: rest, key => if k = key then some v else lookupAssoc rest key

/-! ## The two regular expressions

`EMAIL_RE`'s pattern is `[\w\.-]+@[\w\.-]+\.\w+`.  At a fixed start
position, Python's engine succeeds iff the text starts with a nonempty
run of email chars, immediately followed by `@`, followed by a run R of
email chars that can be written `pre ++ '.' :: w ++ restR` where the dot
is the last dot of R that is immediately followed by a word char, `pre`
is nonempty, and `w` is the maximal word-char run after that dot.  (The
first greedy class cannot stop early because every shorter run is
followed by an email char, which is not `@`; the second greedy class
backtracks from the right to the last viable dot; the final `\w+` is
greedy and ends the pattern.) -/

/-- Find the last dot of the list that is immediately followed by a word
character.  Returns (text before the dot, dot plus the maximal word run
after it, remainder). -/
def lastDotSplit : List Char → Option (List Char × List Char × List Char)
  | [] => none
  | c :: cs =>
    match lastDotSplit cs with
    | some (pre, m, rest) => some (c :: pre, m, rest)
    | none =>
      if c = '.' && !(cs.takeWhile isWordChar).isEmpty then
        some ([], '.' :: cs.takeWhile isWordChar, cs.dropWhile isWordChar)
      else none

/-- Match EMAIL_RE at the start of the text; on success return the matched
email and the remaining text (Python semantics derived above). -/
def emailMatchAt (cs : List Char) : Option (List Char × List Char) :=
  if (cs.takeWhile isEmailChar).isEmpty then none
  else
    match cs.dropWhile isEmailChar with
    | '@' :: r2 =>
      match lastDotSplit (r2.takeWhile isEmailChar) with
      | some (pre, m, restRun) =>
        if pre.isEmpty then none
        else some (cs.takeWhile isEmailChar ++ '@' :: (pre ++ m),
                   restRun ++ r2.dropWhile isEmailChar)
      | none => none
    | _ => none

/-- Fuel-driven worker for `emailFindAll`: scan left to right, at each
position try a match; on success emit it and resume after the match, else
advance one character.  Fuel `length` always suffices. -/
def emailFindAllAux : Nat → List Char → List (List Char)
  | 0, _ => []
  | _ + 1, [] => []
  | fuel + 1, c :: cs =>
    match emailMatchAt (c :: cs) with
    | some (m, rest) => m :: emailFindAllAux fuel rest
    | none => emailFindAllAux fuel cs

/-- Model of `EMAIL_RE.findall(s)`. -/
def emailFindAll (cs : List Char) : List (List Char) := emailFindAllAux cs.length cs

/-- Match CORRESPONDING_AUTHOR_RE at the start of the text; on success
return (group 1 = name span, group 2 = email, remaining text).  The lazy
name class excludes the comma, so the name group is exactly the maximal
run of name chars and must be immediately followed by a comma; `\s*`
must swallow the whole whitespace run because an email cannot start with
whitespace. -/
def pairMatchAt (cs : List Char) : Option (List Char × List Char × List Char) :=
  if (cs.takeWhile isNameChar).isEmpty then none
  else
    match cs.dropWhile isNameChar with
    | ',' :: r2 =>
      match emailMatchAt (r2.dropWhile isPySpace) with
      | some (m, rest) => some (cs.takeWhile isNameChar, m, rest)
      | none => none
    | _ => none

/-- Fuel-driven worker for `pairFindAll`; fuel `length` always suffices. -/
def pairFindAllAux : Nat → List Char → List (List Char × List Char)
  | 0, _ => []
  | _ + 1, [] => []
  | fuel + 1, c :: cs =>
    match pairMatchAt (c :: cs) with
    | some (g1, m, rest) => (g1, m) :: pairFindAllAux fuel rest
    | none => pairFindAllAux fuel cs

/-- Model of `CORRESPONDING_AUTHOR_RE.findall(s)`: the list of (name span, email) groups. -/
def pairFindAll (cs : List Char) : List (List Char × List Char) := pairFindAllAux cs.length cs

/-! ## Per-record pipeline (lines 64-150 of the source) -/

/-- The tag/value separator: a single space, hyphen, single space. -/
def tvSep : List Char := " - ".toList

/-- The end-of-record marker the file is split on (line 62 of the source). -/
def erMarker : List Char := "\nER - ".toList

/-- Mutable state of one record's parse loop: the per-record variables
initialized at lines 69-72 of the source.  The Python dict
`corresponding_info` is an insertion-ordered association list, the Python
set `emails_found_in_record` an insertion-ordered duplicate-free list. -/
structure RecState where
  title : Option (List Char)
  year : Option (List Char)
  journal : Option (List Char)
  firstAuthor : Option (List Char)
  allAuthors : List (List Char)
  keywords : List (List Char)
  correspondingInfo : List (List Char × List Char)
  emailsFound : List (List Char)
deriving DecidableEq, Repr

/-- The state at the start of each record. -/
def initRecState : RecState :=
  { title := none, year := none, journal := none, firstAuthor := none,
    allAuthors := [], keywords := [], correspondingInfo := [], emailsFound := [] }

/-- Structured-field update for one parsed (tag, value) pair
(lines 91-103 of the source). -/
def applyTag (s : RecState) (tag value : List Char) : RecState :=
  if tag = "T1".toList then { s with title := some value }
  else if tag = "Y1".toList then { s with year := some value }
  else if tag = "JF".toList || tag = "JO".toList then { s with journal := some value }
  else if tag = "KW".toList then { s with keywords := s.keywords ++ [value] }
  else if tag = "A1".toList then
    { s with allAuthors := s.allAuthors ++ [value],
             firstAuthor := if pyTruthy s.firstAuthor then s.firstAuthor else some value }
  else s

/-- Name cleanup applied to group 1 of a tier-1 match (lines 113-115 of the
source): strip, delete asterisks, delete the literal substring
"(Corresponding Author)", keep the last semicolon segment, strip again. -/
def cleanName (namePart : List Char) : List Char :=
  let n1 := pyStrip namePart
  let n2 := n1.filter (fun c => c ≠ '*')
  let n3 := removeSeq "(Corresponding Author)".toList n2
  pyStrip ((splitSeq [';'] n3).getLastD [])

/-- One tier-1 match step (lines 110-119 of the source): for a (name span,
email) match, lowercase the email, clean the name, bind the email to the
name only if it is not yet bound, and add the email to the found set
(the binding leaves the found set of the intermediate state unchanged, so
the two updates commute and are written as one record update). -/
def tier1Step (st : RecState) (p : List Char × List Char) : RecState :=
  if lookupAssoc st.correspondingInfo (lowerList p.2) = none then
    { st with correspondingInfo := st.correspondingInfo ++ [(lowerList p.2, cleanName p.1)],
              emailsFound := insertUnique st.emailsFound (lowerList p.2) }
  else
    { st with emailsFound := insertUnique st.emailsFound (lowerList p.2) }

/-- Tier-1 paired extraction applied to one M1/AD/A1 line (lines 106-119 of
the source): fold the match list of CORRESPONDING_AUTHOR_RE on the whole
stripped line through `tier1Step`. -/
def tier1 (s : RecState) (line : List Char) : RecState :=
  (pairFindAll line).foldl tier1Step s

/-- Processing of one physical line of a record (lines 77-119 of the source):
strip the line; skip it if it lacks the " - " separator; otherwise split on
the first separator into (tag, value), update the structured fields, and run
tier-1 extraction on the whole stripped line when the tag is M1, AD or A1.
(The source's try/except around the split can never fire: with the
separator present, maxsplit=1 always yields exactly two parts.) -/
def lineStep (s : RecState) (rawLine : List Char) : RecState :=
  match breakSeq tvSep (pyStrip rawLine) with
  | none => s
  | some (left, right) =>
    if pyStrip left = "M1".toList || pyStrip left = "AD".toList || pyStrip left = "A1".toList then
      tier1 (applyTag s (pyStrip left) (pyStrip right)) (pyStrip rawLine)
    else
      applyTag s (pyStrip left) (pyStrip right)

/-- The (tag, value) pair a physical line parses to, if the stripped line
contains the separator; mirrors exactly the parse performed in `lineStep`. -/
def parsedTag? (rawLine : List Char) : Option (List Char × List Char) :=
  match breakSeq tvSep (pyStrip rawLine) with
  | none => none
  | some (left, right) => some (pyStrip left, pyStrip right)

/-- The parsed value of a physical line when its tag is A1, else none. -/
def a1Value? (rawLine : List Char) : Option (List Char) :=
  match parsedTag? rawLine with
  | none => none
  | some (tag, v) => if tag = "A1".toList then some v else none

/-- One tier-2 step (lines 124-129 of the source): add the email to the
found set and, when it has no name yet, bind it to first_author if truthy
else "N/A" (adding to the found set does not affect the dict lookup, so
the updates are written as one record update). -/
def tier2Step (st : RecState) (email : List Char) : RecState :=
  if lookupAssoc st.correspondingInfo email = none then
    { st with emailsFound := insertUnique st.emailsFound email,
              correspondingInfo := st.correspondingInfo ++
                [(email, if pyTruthy st.firstAuthor then st.firstAuthor.getD [] else "N/A".toList)] }
  else
    { st with emailsFound := insertUnique st.emailsFound email }

/-- Tier-2 fallback scan (lines 121-129 of the source): collect every
EMAIL_RE match of the full record text, lowercased, as a set, and fold it
through `tier2Step`. -/
def tier2 (s : RecState) (fullText : List Char) : RecState :=
  (dedupKeepFirst ((emailFindAll fullText).map lowerList)).foldl tier2Step s

/-- The physical lines of a record: `record_str.split('\n')` (line 74). -/
def recordLines (recordStr : List Char) : List (List Char) := splitSeq ['\n'] recordStr

/-- The text scanned by the tier-2 fallback: `" \n ".join(lines)` (line 75). -/
def fullRecordText (recordStr : List Char) : List Char :=
  joinSep " \n ".toList (recordLines recordStr)

/-- The state after the line loop of one record (before the tier-2 scan). -/
def lineState (recordStr : List Char) : RecState :=
  (recordLines recordStr).foldl lineStep initRecState

/-- The fully resolved state of one record: the line loop followed by the
tier-2 fallback scan. -/
def resolveRecord (recordStr : List Char) : RecState :=
  tier2 (lineState recordStr) (fullRecordText recordStr)

/-- One output row appended to `all_parsed_data` (lines 141-150 of the source). -/
structure Row where
  title : String
  year : Option String
  journal : Option String
  correspondingAuthor : String
  email : String
  allAuthors : String
  keywords : String
  sourceFile : String
deriving DecidableEq, Repr

/-- Row emission for one record (lines 131-150 of the source): rows are
produced only when the title is truthy and the found-email set is
nonempty; one row per found email, whose name is looked up in
corresponding_info with default first_author-if-truthy-else-"N/A". -/
def processRecord (fileName : String) (recordStr : List Char) : List Row :=
  let s := resolveRecord recordStr
  if pyTruthy s.title && !s.emailsFound.isEmpty then
    s.emailsFound.map (fun email =>
      let name :=
        match lookupAssoc s.correspondingInfo email with
        | some n => n
        | none => if pyTruthy s.firstAuthor then s.firstAuthor.getD [] else "N/A".toList
      { title := (s.title.getD []).asString,
        year := (s.year.map List.asString),
        journal := (s.journal.map List.asString),
        correspondingAuthor := name.asString,
        email := email.asString,
        allAuthors := (joinSep "; ".toList s.allAuthors).asString,
        keywords := (joinSep "; ".toList s.keywords).asString,
        sourceFile := fileName })
  else []

/-! ## Per-file and per-batch processing (lines 52-159 of the source) -/

/-- Record segmentation: split a file's text on the end-of-record marker
(line 62 of the source). -/
def segmentText (text : List Char) : List (List Char) := splitSeq erMarker text

/-- The skip test of lines 56-59: the decoded text strips to nothing.  A file
for which this holds is reported as skipped (st.warning) and contributes
nothing; the loop continues with the next file. -/
def fileSkipped (text : List Char) : Bool := (pyStrip text).isEmpty

/-- All rows contributed by one decoded file (lines 56-150 of the source):
nothing if the file is skipped; otherwise the rows of each record whose
text does not strip to nothing, in order. -/
def fileRows (name : String) (text : List Char) : List Row :=
  if fileSkipped text then []
  else
    (((segmentText (pyStrip text)).filter (fun r => !(pyStrip r).isEmpty)).map
      (processRecord name)).flatten

/-- The deduplication key of `drop_duplicates(subset=['Title', 'Email'])`. -/
def rowKey (r : Row) : String × String := (r.title, r.email)

/-- The concatenated `all_parsed_data` list over a batch of (name, decoded text) files. -/
def rawBatchRows (files : List (String × List Char)) : List Row :=
  (files.map (fun f => fileRows f.1 f.2)).flatten

/-- Keep-first deduplication on the (Title, Email) key with an accumulator of
already-seen keys; models pandas drop_duplicates(subset=['Title','Email'])
with its default keep='first'. -/
def dedupRows : List Row → List (String × String) → List Row
  | [], _ => []
  | r :: rs, seen =>
    if rowKey r ∈ seen then dedupRows rs seen
    else r :: dedupRows rs (rowKey r :: seen)

/-- The final table of a batch (lines 158-159 of the source): the
concatenated rows of all files, deduplicated keep-first on (Title, Email). -/
def processBatch (files : List (String × List Char)) : List Row :=
  dedupRows (rawBatchRows files) []

/-- The email-shape predicate of the spec over a character list: exactly one
'@', and a domain that ends in a dot followed by a nonempty dot-free suffix. -/
def emailShapedL (cs : List Char) : Prop :=
  cs.count '@' = 1 ∧
  ∃ loc dom suf : List Char,
    cs = loc ++ '@' :: (dom ++ '.' :: suf) ∧ suf ≠ [] ∧ '.' ∉ suf

/-- The email-shape predicate of the spec, on strings. -/
def emailShaped (s : String) : Prop := emailShapedL s.toList

/-- The set of keys seen after scanning a row list, starting from `seen`
(the accumulator `dedupRows` effectively carries). -/
def seenAfter (l : List Row) (seen : List (String × String)) : List (String × String) :=
  l.foldl (fun acc r => if rowKey r ∈ acc then acc else rowKey r :: acc) seen

/-- The single row produced by the one-file batch used in the C3 witness. -/
def c3SampleRow : Row :=
  { title := "A", year := none, journal := none, correspondingAuthor := "AD - B",
    email := "b@c.de", allAuthors := "", keywords := "", sourceFile := "f.ris" }

/-! ## Utility lemmas -/

theorem seqPrefix_iff : ∀ (s l : List Char), seqPrefix s l = true ↔ ∃ t, l = s ++ t
  | [], l => by simp [seqPrefix]
  | a :: as, [] => by
      simp only [seqPrefix, Bool.false_eq_true, false_iff]
      rintro ⟨t, h⟩
      exact (List.cons_ne_nil _ _) h.symm
  | a :: as, b :: bs => by
      simp only [seqPrefix, Bool.and_eq_true, decide_eq_true_eq, seqPrefix_iff as bs]
      constructor
      · rintro ⟨rfl, t, rfl⟩
        exact ⟨t, rfl⟩
      · rintro ⟨t, h⟩
        injection h with h1 h2
        exact ⟨h1.symm, t, h2⟩

theorem breakSeq_eq {sep cs pre post : List Char}
    (h : breakSeq sep cs = some (pre, post)) : cs = pre ++ sep ++ post := by
  induction cs generalizing pre post with
  | nil =>
    simp only [breakSeq] at h
    split at h
    · rename_i hsep
      simp only [Option.some.injEq, Prod.mk.injEq] at h
      obtain ⟨rfl, rfl⟩ := h
      simp [List.isEmpty_iff.1 hsep]
    · cases h
  | cons c cs ih =>
    simp only [breakSeq] at h
    split at h
    · rename_i hpre
      obtain ⟨t, ht⟩ := (seqPrefix_iff sep (c :: cs)).1 hpre
      simp only [Option.some.injEq, Prod.mk.injEq] at h
      obtain ⟨rfl, rfl⟩ := h
      rw [ht, List.nil_append, List.drop_left]
    · split at h
      · rename_i pre' post' heq
        simp only [Option.some.injEq, Prod.mk.injEq] at h
        obtain ⟨rfl, rfl⟩ := h
        rw [List.cons_append, List.cons_append, ← ih heq]
      · cases h

theorem breakSeq_pre_free {sep : List Char} (hsep : sep ≠ []) :
    ∀ {cs pre post : List Char}, breakSeq sep cs = some (pre, post) →
      containsSeq sep pre = false := by
  intro cs
  induction cs with
  | nil =>
    intro pre post h
    simp only [breakSeq] at h
    split at h
    · rename_i hs
      exact absurd (List.isEmpty_iff.1 hs) hsep
    · cases h
  | cons c cs ih =>
    intro pre post h
    simp only [breakSeq] at h
    split at h
    · rename_i hpre
      simp only [Option.some.injEq, Prod.mk.injEq] at h
      obtain ⟨rfl, rfl⟩ := h
      simp only [containsSeq, breakSeq]
      split
      · rename_i hs
        exact absurd (List.isEmpty_iff.1 hs) hsep
      · rfl
    · rename_i hnpre
      split at h
      · rename_i pre' post' heq
        simp only [Option.some.injEq, Prod.mk.injEq] at h
        obtain ⟨rfl, rfl⟩ := h
        have hcs := breakSeq_eq heq
        have hpre2 : seqPrefix sep (c :: pre') = false := by
          by_contra hx
          rw [Bool.not_eq_false] at hx
          obtain ⟨t, ht⟩ := (seqPrefix_iff sep (c :: pre')).1 hx
          apply hnpre
          refine (seqPrefix_iff sep (c :: cs)).2 ⟨t ++ (sep ++ post'), ?_⟩
          rw [hcs]
          have hsplit : c :: (pre' ++ sep ++ post') = (c :: pre') ++ (sep ++ post') := by
            simp
          rw [hsplit, ht]
          simp
        have hnone : breakSeq sep pre' = none := by
          have hfree := ih heq
          simp only [containsSeq] at hfree
          cases hb : breakSeq sep pre' with
          | none => rfl
          | some x =>
            rw [hb] at hfree
            simp at hfree
        simp only [containsSeq, breakSeq, hpre2, Bool.false_eq_true, if_false, hnone]
        rfl
      · cases h

theorem splitSeqAux_ne_nil (sep : List Char) (fuel : Nat) (cs : List Char) :
    splitSeqAux sep fuel cs ≠ [] := by
  cases fuel with
  | zero => simp [splitSeqAux]
  | succ n =>
    simp only [splitSeqAux]
    split <;> simp

theorem joinSep_cons (sep x : List Char) {l : List (List Char)} (h : l ≠ []) :
    joinSep sep (x :: l) = x ++ sep ++ joinSep sep l := by
  cases l with
  | nil => exact absurd rfl h
  | cons y ys => rfl

theorem splitSeqAux_spec {sep : List Char} (hsep : sep ≠ []) :
    ∀ (fuel : Nat) (cs : List Char), cs.length < fuel →
      joinSep sep (splitSeqAux sep fuel cs) = cs ∧
      ∀ f ∈ splitSeqAux sep fuel cs, containsSeq sep f = false := by
  intro fuel
  induction fuel with
  | zero => intro cs h; omega
  | succ n ih =>
    intro cs hlen
    simp only [splitSeqAux]
    cases hb : breakSeq sep cs with
    | none =>
      refine ⟨rfl, ?_⟩
      intro f hf
      rw [List.mem_singleton] at hf
      subst hf
      simp [containsSeq, hb]
    | some pp =>
      obtain ⟨pre, post⟩ := pp
      have hcs := breakSeq_eq hb
      have hpost : post.length < n := by
        have h1 : 1 ≤ sep.length := List.length_pos.2 hsep
        have h2 : cs.length = pre.length + sep.length + post.length := by
          rw [hcs]; simp only [List.length_append]
        omega
      have hih := ih post hpost
      constructor
      · rw [joinSep_cons sep pre (splitSeqAux_ne_nil sep n post), hih.1, hcs]
      · intro f hf
        rw [List.mem_cons] at hf
        rcases hf with rfl | hf
        · exact breakSeq_pre_free hsep hb
        · exact hih.2 f hf

theorem splitSeq_join {sep : List Char} (hsep : sep ≠ []) (cs : List Char) :
    joinSep sep (splitSeq sep cs) = cs :=
  (splitSeqAux_spec hsep (cs.length + 1) cs (by omega)).1

theorem splitSeq_free {sep : List Char} (hsep : sep ≠ []) (cs : List Char) :
    ∀ f ∈ splitSeq sep cs, containsSeq sep f = false :=
  (splitSeqAux_spec hsep (cs.length + 1) cs (by omega)).2

theorem dropWhile_head_not (p : Char → Bool) :
    ∀ {l : List Char} {c : Char} {cs : List Char}, l.dropWhile p = c :: cs → p c = false := by
  intro l
  induction l with
  | nil => intro c cs h; cases h
  | cons a l ih =>
    intro c cs h
    by_cases hp : p a
    · rw [List.dropWhile_cons_of_pos hp] at h
      exact ih h
    · rw [List.dropWhile_cons_of_neg hp] at h
      injection h with h1 _
      subst h1
      simpa using hp

theorem pyStrip_last_not_space (l : List Char) :
    pyStrip l = [] ∨ ∃ init c, pyStrip l = init ++ [c] ∧ isPySpace c = false := by
  unfold pyStrip
  cases hd : (l.dropWhile isPySpace).reverse.dropWhile isPySpace with
  | nil => left; simp [hd]
  | cons c cs =>
    right
    exact ⟨cs.reverse, c, by simp [hd], dropWhile_head_not _ hd⟩

theorem pyStrip_eq_nil_all_space {l : List Char} (h : pyStrip l = []) :
    ∀ c ∈ l, isPySpace c = true := by
  unfold pyStrip at h
  rw [List.reverse_eq_nil_iff] at h
  have h2 : ∀ c ∈ (l.dropWhile isPySpace).reverse, isPySpace c = true :=
    List.dropWhile_eq_nil_iff.1 h
  intro c hc
  rw [← List.takeWhile_append_dropWhile (p := isPySpace) (l := l)] at hc
  rcases List.mem_append.1 hc with hc | hc
  · exact List.mem_takeWhile_imp hc
  · exact h2 c (List.mem_reverse.2 hc)

theorem stripValue_ne_nil {raw left right : List Char}
    (h : breakSeq tvSep (pyStrip raw) = some (left, right)) : pyStrip right ≠ [] := by
  intro hnil
  have hall : ∀ c ∈ right, isPySpace c = true := pyStrip_eq_nil_all_space hnil
  have heq := breakSeq_eq h
  rcases pyStrip_last_not_space raw with h0 | ⟨init, c, hc, hcs⟩
  · rw [h0] at heq
    rw [List.append_assoc] at heq
    obtain ⟨-, h2⟩ := List.append_eq_nil.1 heq.symm
    obtain ⟨h3, -⟩ := List.append_eq_nil.1 h2
    simp [tvSep] at h3
  · rw [hc] at heq
    have hlast : (init ++ [c]).getLast? = some c := List.getLast?_concat init
    cases hr : right with
    | nil =>
      subst hr
      rw [heq] at hlast
      rw [List.append_nil, List.getLast?_append_of_ne_nil left (by simp [tvSep])] at hlast
      have hsp : c = ' ' := by
        have h4 : some ' ' = some c := by
          rw [← hlast]; decide
        injection h4 with h5
        exact h5.symm
      rw [hsp] at hcs
      simp [isPySpace] at hcs
    | cons r rs =>
      subst hr
      rw [heq] at hlast
      rw [List.append_assoc, List.getLast?_append_of_ne_nil left (by simp),
        List.getLast?_append_of_ne_nil tvSep (by simp)] at hlast
      have hmem : c ∈ r :: rs := List.mem_of_getLast?_eq_some hlast
      rw [hall c hmem] at hcs
      cases hcs

theorem lookupAssoc_append_some {m : List (List Char × List Char)} {k v : List Char}
    (h : lookupAssoc m k = some v) (m' : List (List Char × List Char)) :
    lookupAssoc (m ++ m') k = some v := by
  induction m with
  | nil => cases h
  | cons p m ih =>
    obtain ⟨k1, v1⟩ := p
    simp only [lookupAssoc, List.cons_append] at h ⊢
    split at h
    · rename_i hp
      rw [if_pos hp]
      exact h
    · rename_i hp
      rw [if_neg hp]
      exact ih h

theorem lookupAssoc_append_of_none {m : List (List Char × List Char)} {k : List Char}
    (h : lookupAssoc m k = none) (m' : List (List Char × List Char)) :
    lookupAssoc (m ++ m') k = lookupAssoc m' k := by
  induction m with
  | nil => rfl
  | cons p m ih =>
    obtain ⟨k1, v1⟩ := p
    simp only [lookupAssoc] at h
    split at h
    · cases h
    · rename_i hp
      simp only [List.cons_append, lookupAssoc]
      rw [if_neg hp]
      exact ih h

theorem lookupAssoc_single_other {k k' v : List Char} (h : k' ≠ k) :
    lookupAssoc [(k, v)] k' = none := by
  simp only [lookupAssoc]
  rw [if_neg (fun hx => h hx.symm)]

/-! ## Character-level lemmas about lowercasing -/

theorem lowerChar_toNat_of_upper {c : Char} (h : 65 ≤ c.toNat ∧ c.toNat ≤ 90) :
    (lowerChar c).toNat = c.toNat + 32 := by
  unfold lowerChar
  rw [if_pos h]
  have hvalid : (c.toNat + 32).isValidChar := Or.inl (by omega)
  rw [Char.ofNat, dif_pos hvalid]
  rfl

theorem lowerChar_eq_of_not_upper {c : Char} (h : ¬(65 ≤ c.toNat ∧ c.toNat ≤ 90)) :
    lowerChar c = c := by
  unfold lowerChar
  rw [if_neg h]

theorem isLower_of_toNat {c : Char} (h97 : 97 ≤ c.toNat) (h122 : c.toNat ≤ 122) :
    c.isLower = true := by
  unfold Char.isLower
  rw [Bool.and_eq_true, decide_eq_true_eq, decide_eq_true_eq]
  exact ⟨h97, h122⟩

theorem lowerChar_wordChar {c : Char} (h : isWordChar c = true) :
    isWordChar (lowerChar c) = true := by
  by_cases hc : 65 ≤ c.toNat ∧ c.toNat ≤ 90
  · have ht := lowerChar_toNat_of_upper hc
    have hl : (lowerChar c).isLower = true :=
      isLower_of_toNat (by omega) (by omega)
    simp [isWordChar, Char.isAlphanum, Char.isAlpha, hl]
  · rw [lowerChar_eq_of_not_upper hc]
    exact h

theorem lowerChar_emailChar {c : Char} (h : isEmailChar c = true) :
    isEmailChar (lowerChar c) = true := by
  by_cases hc : 65 ≤ c.toNat ∧ c.toNat ≤ 90
  · have ht := lowerChar_toNat_of_upper hc
    have hl : (lowerChar c).isLower = true :=
      isLower_of_toNat (by omega) (by omega)
    simp [isEmailChar, isWordChar, Char.isAlphanum, Char.isAlpha, hl]
  · rw [lowerChar_eq_of_not_upper hc]
    exact h

theorem emailChar_of_wordChar {c : Char} (h : isWordChar c = true) :
    isEmailChar c = true := by
  simp [isEmailChar, h]

theorem lowerChar_ne_at {c : Char} (h : isEmailChar c = true) : lowerChar c ≠ '@' := by
  intro he
  have := lowerChar_emailChar h
  rw [he] at this
  cases this

theorem lowerChar_ne_dot {c : Char} (h : isWordChar c = true) : lowerChar c ≠ '.' := by
  intro he
  have := lowerChar_wordChar h
  rw [he] at this
  cases this

/-! ## Soundness of the regex matchers: every match has email shape -/

theorem lastDotSplit_spec :
    ∀ {run pre m rest : List Char}, lastDotSplit run = some (pre, m, rest) →
      ∃ w, m = '.' :: w ∧ w ≠ [] ∧ (∀ c ∈ w, isWordChar c = true) ∧ run = pre ++ m ++ rest := by
  intro run
  induction run with
  | nil => intro pre m rest h; cases h
  | cons c cs ih =>
    intro pre m rest h
    simp only [lastDotSplit] at h
    split at h
    · rename_i pre' m' rest' heq
      simp only [Option.some.injEq, Prod.mk.injEq] at h
      obtain ⟨rfl, rfl, rfl⟩ := h
      obtain ⟨w, hw, hwne, hwall, hrun⟩ := ih heq
      exact ⟨w, hw, hwne, hwall, by rw [List.cons_append, List.cons_append, ← hrun]⟩
    · split at h
      · rename_i hcond
        simp only [Option.some.injEq, Prod.mk.injEq] at h
        obtain ⟨rfl, rfl, rfl⟩ := h
        rw [Bool.and_eq_true, decide_eq_true_eq, Bool.not_eq_eq_eq_not, Bool.not_true,
          List.isEmpty_eq_false_iff_exists_mem] at hcond
        obtain ⟨hdot, x, hx⟩ := hcond
        refine ⟨cs.takeWhile isWordChar, rfl, ?_, ?_, ?_⟩
        · exact List.ne_nil_of_mem hx
        · intro y hy
          exact List.mem_takeWhile_imp hy
        · subst hdot
          simp [List.takeWhile_append_dropWhile]
      · cases h

theorem emailMatchAt_spec {cs m rest : List Char} (h : emailMatchAt cs = some (m, rest)) :
    ∃ p1 pre w : List Char,
      m = p1 ++ '@' :: (pre ++ '.' :: w) ∧ p1 ≠ [] ∧ pre ≠ [] ∧ w ≠ [] ∧
      (∀ c ∈ p1, isEmailChar c = true) ∧ (∀ c ∈ pre, isEmailChar c = true) ∧
      (∀ c ∈ w, isWordChar c = true) := by
  unfold emailMatchAt at h
  split at h
  · cases h
  · rename_i hne
    split at h
    · rename_i r2 heq
      split at h
      · rename_i pre0 m0 rest0 hld
        split at h
        · cases h
        · rename_i hpre0
          simp only [Option.some.injEq, Prod.mk.injEq] at h
          obtain ⟨rfl, rfl⟩ := h
          obtain ⟨w, hw, hwne, hwall, hrun⟩ := lastDotSplit_spec hld
          refine ⟨cs.takeWhile isEmailChar, pre0, w, by rw [hw], ?_, ?_, hwne, ?_, ?_, hwall⟩
          · intro hx
            rw [hx] at hne
            simp at hne
          · intro hx
            rw [hx] at hpre0
            simp at hpre0
          · intro x hx
            exact List.mem_takeWhile_imp hx
          · intro x hx
            have hxrun : x ∈ r2.takeWhile isEmailChar := by
              rw [hrun, hw]
              exact List.mem_append.2 (Or.inl (List.mem_append.2 (Or.inl hx)))
            exact List.mem_takeWhile_imp hxrun
      · cases h
    · cases h

theorem pairMatchAt_email {cs g m rest : List Char} (h : pairMatchAt cs = some (g, m, rest)) :
    ∃ cs', emailMatchAt cs' = some (m, rest) := by
  unfold pairMatchAt at h
  split at h
  · cases h
  · rename_i hne
    split at h
    · rename_i r2 heq
      split at h
      · rename_i m0 rest0 hm
        simp only [Option.some.injEq, Prod.mk.injEq] at h
        obtain ⟨rfl, rfl, rfl⟩ := h
        exact ⟨r2.dropWhile isPySpace, hm⟩
      · cases h
    · cases h

theorem emailFindAllAux_sound :
    ∀ (fuel : Nat) (cs m : List Char), m ∈ emailFindAllAux fuel cs →
      ∃ cs' rest, emailMatchAt cs' = some (m, rest) := by
  intro fuel
  induction fuel with
  | zero => intro cs m h; cases h
  | succ n ih =>
    intro cs m h
    cases cs with
    | nil => cases h
    | cons c cs =>
      simp only [emailFindAllAux] at h
      split at h
      · rename_i m0 rest0 hm
        rw [List.mem_cons] at h
        rcases h with rfl | h
        · exact ⟨c :: cs, rest0, hm⟩
        · exact ih _ _ h
      · exact ih _ _ h

theorem lowerChar_at_eq : lowerChar '@' = '@' := by decide

theorem lowerChar_dot_eq : lowerChar '.' = '.' := by decide

theorem count_at_lower_zero {l : List Char} (h : ∀ c ∈ l, isEmailChar c = true) :
    (lowerList l).count '@' = 0 := by
  rw [List.count_eq_zero]
  intro hmem
  obtain ⟨c, hc, hlc⟩ := List.mem_map.1 hmem
  exact lowerChar_ne_at (h c hc) hlc

theorem emailShapedL_lower_of_match {cs m rest : List Char}
    (h : emailMatchAt cs = some (m, rest)) : emailShapedL (lowerList m) := by
  obtain ⟨p1, pre, w, hm, hp1, hpre, hw, hp1all, hpreall, hwall⟩ := emailMatchAt_spec h
  subst hm
  have hsplit : lowerList (p1 ++ '@' :: (pre ++ '.' :: w))
      = lowerList p1 ++ '@' :: (lowerList pre ++ '.' :: lowerList w) := by
    simp only [lowerList, List.map_append, List.map_cons, lowerChar_at_eq, lowerChar_dot_eq]
  rw [hsplit]
  constructor
  · rw [List.count_append, List.count_cons, List.count_append, List.count_cons,
      count_at_lower_zero hp1all, count_at_lower_zero hpreall,
      count_at_lower_zero (fun c hc => emailChar_of_wordChar (hwall c hc))]
    simp
  · refine ⟨lowerList p1, lowerList pre, lowerList w, rfl, ?_, ?_⟩
    · simp only [lowerList, ne_eq, List.map_eq_nil_iff]
      exact hw
    · intro hmem
      obtain ⟨c, hc, hlc⟩ := List.mem_map.1 hmem
      exact lowerChar_ne_dot (hwall c hc) hlc

theorem pairFindAllAux_sound :
    ∀ (fuel : Nat) (cs : List Char) (p : List Char × List Char), p ∈ pairFindAllAux fuel cs →
      ∃ cs' rest, pairMatchAt cs' = some (p.1, p.2, rest) := by
  intro fuel
  induction fuel with
  | zero => intro cs p h; cases h
  | succ n ih =>
    intro cs p h
    cases cs with
    | nil => cases h
    | cons c cs =>
      simp only [pairFindAllAux] at h
      split at h
      · rename_i g0 m0 rest0 hm
        rw [List.mem_cons] at h
        rcases h with rfl | h
        · exact ⟨c :: cs, rest0, hm⟩
        · exact ih _ _ h
      · exact ih _ _ h

/-! ## Record-state lemmas -/

theorem foldl_preserve {α : Type} {P : RecState → Prop} (f : RecState → α → RecState) :
    ∀ (l : List α) (s : RecState), (∀ st a, a ∈ l → P st → P (f st a)) → P s → P (l.foldl f s) := by
  intro l
  induction l with
  | nil => intro s _ h; exact h
  | cons a l ih =>
    intro s hf h
    exact ih _ (fun st b hb => hf st b (List.mem_cons_of_mem a hb))
      (hf s a (List.mem_cons_self a l) h)

theorem insertUnique_mem {l : List (List Char)} {x e : List Char}
    (h : e ∈ insertUnique l x) : e ∈ l ∨ e = x := by
  unfold insertUnique at h
  split at h
  · exact Or.inl h
  · rcases List.mem_append.1 h with h | h
    · exact Or.inl h
    · exact Or.inr (List.mem_singleton.1 h)

theorem mem_dedupKeepFirst {l : List (List Char)} {x : List Char} :
    x ∈ dedupKeepFirst l → x ∈ l := by
  induction l with
  | nil => intro h; cases h
  | cons a l ih =>
    intro h
    simp only [dedupKeepFirst] at h
    rcases List.mem_cons.1 h with rfl | h
    · exact List.mem_cons_self _ _
    · exact List.mem_cons_of_mem _ (ih (List.mem_filter.1 h).1)

theorem mem_first_decomp {a : List Char} {l : List (List Char)} (h : a ∈ l) :
    ∃ l₁ l₂, l = l₁ ++ a :: l₂ ∧ a ∉ l₁ := by
  induction l with
  | nil => cases h
  | cons x xs ih =>
    by_cases hx : a = x
    · subst hx
      exact ⟨[], xs, rfl, by simp⟩
    · have hmem : a ∈ xs := by
        rcases List.mem_cons.1 h with h1 | h1
        · exact absurd h1 hx
        · exact h1
      obtain ⟨l₁, l₂, rfl, hna⟩ := ih hmem
      exact ⟨x :: l₁, l₂, rfl, by simp [hx, hna]⟩

theorem tier1Step_firstAuthor (st : RecState) (p : List Char × List Char) :
    (tier1Step st p).firstAuthor = st.firstAuthor := by
  unfold tier1Step
  split <;> rfl

theorem tier1Step_allAuthors (st : RecState) (p : List Char × List Char) :
    (tier1Step st p).allAuthors = st.allAuthors := by
  unfold tier1Step
  split <;> rfl

theorem tier1Step_title (st : RecState) (p : List Char × List Char) :
    (tier1Step st p).title = st.title := by
  unfold tier1Step
  split <;> rfl

theorem tier1Step_emailsFound_mem {st : RecState} {p : List Char × List Char} {e : List Char}
    (h : e ∈ (tier1Step st p).emailsFound) : e ∈ st.emailsFound ∨ e = lowerList p.2 := by
  unfold tier1Step at h
  split at h <;> exact insertUnique_mem h

theorem tier1Step_lookup_some {st : RecState} {p : List Char × List Char} {e n : List Char}
    (h : lookupAssoc st.correspondingInfo e = some n) :
    lookupAssoc (tier1Step st p).correspondingInfo e = some n := by
  unfold tier1Step
  split
  · exact lookupAssoc_append_some h _
  · exact h

theorem tier1_firstAuthor (s : RecState) (line : List Char) :
    (tier1 s line).firstAuthor = s.firstAuthor :=
  foldl_preserve (P := fun st => st.firstAuthor = s.firstAuthor) tier1Step _ s
    (fun st a _ h => by simp only [tier1Step_firstAuthor]; exact h) rfl

theorem tier1_allAuthors (s : RecState) (line : List Char) :
    (tier1 s line).allAuthors = s.allAuthors :=
  foldl_preserve (P := fun st => st.allAuthors = s.allAuthors) tier1Step _ s
    (fun st a _ h => by simp only [tier1Step_allAuthors]; exact h) rfl

theorem tier1_lookup_some {s : RecState} {line e n : List Char}
    (h : lookupAssoc s.correspondingInfo e = some n) :
    lookupAssoc (tier1 s line).correspondingInfo e = some n :=
  foldl_preserve (P := fun st => lookupAssoc st.correspondingInfo e = some n) tier1Step _ s
    (fun st a _ hh => tier1Step_lookup_some hh) h

theorem applyTag_correspondingInfo (s : RecState) (tag value : List Char) :
    (applyTag s tag value).correspondingInfo = s.correspondingInfo := by
  unfold applyTag
  split_ifs <;> rfl

theorem applyTag_emailsFound (s : RecState) (tag value : List Char) :
    (applyTag s tag value).emailsFound = s.emailsFound := by
  unfold applyTag
  split_ifs <;> rfl

theorem applyTag_firstAuthor_of_truthy {s : RecState} (h : pyTruthy s.firstAuthor = true)
    (tag value : List Char) : (applyTag s tag value).firstAuthor = s.firstAuthor := by
  unfold applyTag
  split_ifs <;> simp [h]

theorem applyTag_firstAuthor_of_ne {s : RecState} {tag : List Char} (value : List Char)
    (h : tag ≠ "A1".toList) : (applyTag s tag value).firstAuthor = s.firstAuthor := by
  unfold applyTag
  split_ifs with h1 h2 h3 h4 h5 <;> first | rfl | exact absurd h5 h

theorem applyTag_a1 {s : RecState} (value : List Char) (h : pyTruthy s.firstAuthor = false) :
    (applyTag s ("A1".toList) value).firstAuthor = some value := by
  unfold applyTag
  rw [if_neg (by decide), if_neg (by decide), if_neg (by decide), if_neg (by decide),
    if_pos rfl]
  simp [h]

theorem applyTag_allAuthors_of_ne {s : RecState} {tag : List Char} (value : List Char)
    (h : tag ≠ "A1".toList) : (applyTag s tag value).allAuthors = s.allAuthors := by
  unfold applyTag
  split_ifs with h1 h2 h3 h4 h5 <;> first | rfl | exact absurd h5 h

theorem applyTag_allAuthors_a1 (s : RecState) (value : List Char) :
    (applyTag s ("A1".toList) value).allAuthors = s.allAuthors ++ [value] := by
  unfold applyTag
  rw [if_neg (by decide), if_neg (by decide), if_neg (by decide), if_neg (by decide),
    if_pos rfl]

theorem tier2Step_firstAuthor (st : RecState) (e : List Char) :
    (tier2Step st e).firstAuthor = st.firstAuthor := by
  unfold tier2Step
  split <;> rfl

theorem tier2Step_emailsFound_mem {st : RecState} {x e : List Char}
    (h : e ∈ (tier2Step st x).emailsFound) : e ∈ st.emailsFound ∨ e = x := by
  unfold tier2Step at h
  split at h <;> exact insertUnique_mem h

theorem tier2Step_lookup_some {st : RecState} {x e n : List Char}
    (h : lookupAssoc st.correspondingInfo e = some n) :
    lookupAssoc (tier2Step st x).correspondingInfo e = some n := by
  unfold tier2Step
  split
  · exact lookupAssoc_append_some h _
  · exact h

theorem tier2Step_lookup_none_other {st : RecState} {x e : List Char} (hne : e ≠ x)
    (h : lookupAssoc st.correspondingInfo e = none) :
    lookupAssoc (tier2Step st x).correspondingInfo e = none := by
  unfold tier2Step
  split
  · rw [lookupAssoc_append_of_none h]
    exact lookupAssoc_single_other hne
  · exact h

theorem tier2Step_bind {st : RecState} {e : List Char}
    (h : lookupAssoc st.correspondingInfo e = none) :
    lookupAssoc (tier2Step st e).correspondingInfo e
      = some (if pyTruthy st.firstAuthor then st.firstAuthor.getD [] else "N/A".toList) := by
  unfold tier2Step
  rw [if_pos h]
  rw [lookupAssoc_append_of_none h]
  simp [lookupAssoc]

theorem tier2_firstAuthor (s : RecState) (ft : List Char) :
    (tier2 s ft).firstAuthor = s.firstAuthor :=
  foldl_preserve (P := fun st => st.firstAuthor = s.firstAuthor) tier2Step _ s
    (fun st a _ h => by simp only [tier2Step_firstAuthor]; exact h) rfl

theorem tier2_lookup_some {s : RecState} {ft e n : List Char}
    (h : lookupAssoc s.correspondingInfo e = some n) :
    lookupAssoc (tier2 s ft).correspondingInfo e = some n :=
  foldl_preserve (P := fun st => lookupAssoc st.correspondingInfo e = some n) tier2Step _ s
    (fun st a _ hh => tier2Step_lookup_some hh) h

theorem tier2_foldl_assigns {e : List Char} :
    ∀ (l1 l2 : List (List Char)) (s : RecState), e ∉ l1 →
      lookupAssoc s.correspondingInfo e = none →
      lookupAssoc ((l1 ++ e :: l2).foldl tier2Step s).correspondingInfo e
        = some (if pyTruthy s.firstAuthor then s.firstAuthor.getD [] else "N/A".toList) := by
  intro l1
  induction l1 with
  | nil =>
    intro l2 s _ h
    simp only [List.nil_append, List.foldl_cons]
    exact foldl_preserve
      (P := fun st => lookupAssoc st.correspondingInfo e
        = some (if pyTruthy s.firstAuthor then s.firstAuthor.getD [] else "N/A".toList))
      tier2Step l2 _ (fun st a _ hh => tier2Step_lookup_some hh) (tier2Step_bind h)
  | cons x l1 ih =>
    intro l2 s hne h
    simp only [List.cons_append, List.foldl_cons]
    have hx : e ≠ x := fun hx => hne (hx ▸ List.mem_cons_self x l1)
    have h' := tier2Step_lookup_none_other hx h
    have hfa : (tier2Step s x).firstAuthor = s.firstAuthor := tier2Step_firstAuthor s x
    rw [← hfa]
    exact ih l2 _ (fun hmem => hne (List.mem_cons_of_mem x hmem)) h'

/-! ## Line-level lemmas -/

theorem parsedTag?_eq_some {l left right : List Char}
    (hb : breakSeq tvSep (pyStrip l) = some (left, right)) :
    parsedTag? l = some (pyStrip left, pyStrip right) := by
  unfold parsedTag?
  rw [hb]

theorem parsedTag?_eq_none {l : List Char} (hb : breakSeq tvSep (pyStrip l) = none) :
    parsedTag? l = none := by
  unfold parsedTag?
  rw [hb]

theorem a1Value?_none_of_no_sep {l : List Char} (hb : breakSeq tvSep (pyStrip l) = none) :
    a1Value? l = none := by
  unfold a1Value?
  rw [parsedTag?_eq_none hb]

theorem a1Value?_eq {l left right : List Char}
    (hb : breakSeq tvSep (pyStrip l) = some (left, right)) :
    a1Value? l = if pyStrip left = "A1".toList then some (pyStrip right) else none := by
  unfold a1Value?
  rw [parsedTag?_eq_some hb]

theorem a1Value?_ne_nil {l v : List Char} (h : a1Value? l = some v) : v ≠ [] := by
  cases hb : breakSeq tvSep (pyStrip l) with
  | none =>
    rw [a1Value?_none_of_no_sep hb] at h
    cases h
  | some pq =>
    obtain ⟨left, right⟩ := pq
    rw [a1Value?_eq hb] at h
    by_cases htag : pyStrip left = "A1".toList
    · rw [if_pos htag] at h
      injection h with hv
      rw [← hv]
      exact stripValue_ne_nil hb
    · rw [if_neg htag] at h
      cases h

theorem lineStep_lookup_some {s : RecState} {l e n : List Char}
    (h : lookupAssoc s.correspondingInfo e = some n) :
    lookupAssoc (lineStep s l).correspondingInfo e = some n := by
  unfold lineStep
  split
  · exact h
  · split
    · apply tier1_lookup_some
      rw [applyTag_correspondingInfo]
      exact h
    · rw [applyTag_correspondingInfo]
      exact h

theorem lineStep_firstAuthor_of_truthy {s : RecState} {l : List Char}
    (h : pyTruthy s.firstAuthor = true) : (lineStep s l).firstAuthor = s.firstAuthor := by
  unfold lineStep
  split
  · rfl
  · split
    · rw [tier1_firstAuthor, applyTag_firstAuthor_of_truthy h]
    · rw [applyTag_firstAuthor_of_truthy h]

theorem lineStep_firstAuthor_of_none {s : RecState} {l : List Char}
    (h : a1Value? l = none) : (lineStep s l).firstAuthor = s.firstAuthor := by
  unfold lineStep
  split
  · rfl
  · rename_i left right heq
    have hv := a1Value?_eq heq
    rw [h] at hv
    have htag : pyStrip left ≠ "A1".toList := by
      intro hx
      rw [if_pos hx] at hv
      cases hv
    split
    · rw [tier1_firstAuthor, applyTag_firstAuthor_of_ne _ htag]
    · rw [applyTag_firstAuthor_of_ne _ htag]

theorem lineStep_a1 {s : RecState} {l v : List Char} (ha : a1Value? l = some v)
    (hf : pyTruthy s.firstAuthor = false) : (lineStep s l).firstAuthor = some v := by
  unfold lineStep
  split
  · rename_i heq
    rw [a1Value?_none_of_no_sep heq] at ha
    cases ha
  · rename_i left right heq
    rw [a1Value?_eq heq] at ha
    by_cases htag : pyStrip left = "A1".toList
    · rw [if_pos htag] at ha
      injection ha with hv
      split
      · rw [tier1_firstAuthor, htag, ← hv]
        exact applyTag_a1 _ hf
      · rename_i hcond
        exfalso
        apply hcond
        rw [htag]
        decide
    · rw [if_neg htag] at ha
      cases ha

theorem lineStep_allAuthors (s : RecState) (l : List Char) :
    (lineStep s l).allAuthors = s.allAuthors ++ (a1Value? l).toList := by
  unfold lineStep
  split
  · rename_i heq
    rw [a1Value?_none_of_no_sep heq]
    simp
  · rename_i left right heq
    rw [a1Value?_eq heq]
    by_cases htag : pyStrip left = "A1".toList
    · rw [if_pos htag]
      split
      · rw [tier1_allAuthors, htag, applyTag_allAuthors_a1]
        simp
      · rename_i hcond
        exfalso
        apply hcond
        rw [htag]
        decide
    · rw [if_neg htag]
      split
      · rw [tier1_allAuthors, applyTag_allAuthors_of_ne _ htag]
        simp
      · rw [applyTag_allAuthors_of_ne _ htag]
        simp

/-! ## The found-email set only contains lowercased regex matches -/

theorem tier1Step_emails_shaped {st : RecState} {p : List Char × List Char} {line : List Char}
    (hp : p ∈ pairFindAll line) (hs : ∀ e ∈ st.emailsFound, emailShapedL e) :
    ∀ e ∈ (tier1Step st p).emailsFound, emailShapedL e := by
  intro e he
  rcases tier1Step_emailsFound_mem he with h | rfl
  · exact hs e h
  · obtain ⟨cs', rest, hm⟩ := pairFindAllAux_sound _ _ _ hp
    obtain ⟨cs'', hm'⟩ := pairMatchAt_email hm
    exact emailShapedL_lower_of_match hm'

theorem tier1_emails_shaped {s : RecState} {line : List Char}
    (hs : ∀ e ∈ s.emailsFound, emailShapedL e) :
    ∀ e ∈ (tier1 s line).emailsFound, emailShapedL e :=
  foldl_preserve (P := fun st => ∀ e ∈ st.emailsFound, emailShapedL e) tier1Step _ s
    (fun st a ha hh => tier1Step_emails_shaped ha hh) hs

theorem lineStep_emails_shaped {s : RecState} {l : List Char}
    (hs : ∀ e ∈ s.emailsFound, emailShapedL e) :
    ∀ e ∈ (lineStep s l).emailsFound, emailShapedL e := by
  unfold lineStep
  split
  · exact hs
  · split
    · apply tier1_emails_shaped
      rw [applyTag_emailsFound]
      exact hs
    · rw [applyTag_emailsFound]
      exact hs

theorem tier2Step_emails_shaped {st : RecState} {x : List Char} {ft : List Char}
    (hx : x ∈ dedupKeepFirst ((emailFindAll ft).map lowerList))
    (hs : ∀ e ∈ st.emailsFound, emailShapedL e) :
    ∀ e ∈ (tier2Step st x).emailsFound, emailShapedL e := by
  intro e he
  rcases tier2Step_emailsFound_mem he with h | rfl
  · exact hs e h
  · obtain ⟨m, hmem, rfl⟩ := List.mem_map.1 (mem_dedupKeepFirst hx)
    obtain ⟨cs', rest, hm⟩ := emailFindAllAux_sound _ _ _ hmem
    exact emailShapedL_lower_of_match hm

theorem tier2_emails_shaped {s : RecState} {ft : List Char}
    (hs : ∀ e ∈ s.emailsFound, emailShapedL e) :
    ∀ e ∈ (tier2 s ft).emailsFound, emailShapedL e :=
  foldl_preserve (P := fun st => ∀ e ∈ st.emailsFound, emailShapedL e) tier2Step _ s
    (fun st a ha hh => tier2Step_emails_shaped ha hh) hs

theorem resolveRecord_emails_shaped (rec : List Char) :
    ∀ e ∈ (resolveRecord rec).emailsFound, emailShapedL e := by
  unfold resolveRecord lineState
  apply tier2_emails_shaped
  apply foldl_preserve (P := fun st => ∀ e ∈ st.emailsFound, emailShapedL e) lineStep _
    initRecState (fun st a _ hh => lineStep_emails_shaped hh)
  intro e he
  cases he

/-! ## Deduplication lemmas -/

theorem seenAfter_cons (r : Row) (l : List Row) (seen : List (String × String)) :
    seenAfter (r :: l) seen
      = seenAfter l (if rowKey r ∈ seen then seen else rowKey r :: seen) := rfl

theorem mem_seenAfter_mono {k : String × String} :
    ∀ (l : List Row) (seen : List (String × String)), k ∈ seen → k ∈ seenAfter l seen := by
  intro l
  induction l with
  | nil => intro seen h; exact h
  | cons r l ih =>
    intro seen h
    rw [seenAfter_cons]
    apply ih
    split
    · exact h
    · exact List.mem_cons_of_mem _ h

theorem key_mem_seenAfter :
    ∀ (l : List Row) (seen : List (String × String)) (r : Row), r ∈ l →
      rowKey r ∈ seenAfter l seen := by
  intro l
  induction l with
  | nil => intro seen r h; cases h
  | cons x l ih =>
    intro seen r h
    rw [seenAfter_cons]
    rcases List.mem_cons.1 h with rfl | h
    · apply mem_seenAfter_mono
      split
      · assumption
      · exact List.mem_cons_self _ _
    · exact ih _ r h

theorem dedupRows_append :
    ∀ (l1 l2 : List Row) (seen : List (String × String)),
      dedupRows (l1 ++ l2) seen = dedupRows l1 seen ++ dedupRows l2 (seenAfter l1 seen) := by
  intro l1
  induction l1 with
  | nil => intro l2 seen; rfl
  | cons r l1 ih =>
    intro l2 seen
    by_cases hc : rowKey r ∈ seen
    · simp only [List.cons_append, dedupRows, seenAfter_cons, if_pos hc]
      exact ih l2 seen
    · simp only [List.cons_append, dedupRows, seenAfter_cons, if_neg hc]
      exact congrArg (List.cons r) (ih l2 (rowKey r :: seen))

theorem dedupRows_nil_of_all_seen :
    ∀ (l : List Row) (seen : List (String × String)),
      (∀ r ∈ l, rowKey r ∈ seen) → dedupRows l seen = [] := by
  intro l
  induction l with
  | nil => intro seen _; rfl
  | cons r l ih =>
    intro seen h
    simp only [dedupRows, if_pos (h r (List.mem_cons_self r l))]
    exact ih _ (fun x hx => h x (List.mem_cons_of_mem r hx))

theorem dedupRows_subset :
    ∀ {l : List Row} {seen : List (String × String)} {r : Row},
      r ∈ dedupRows l seen → r ∈ l := by
  intro l
  induction l with
  | nil => intro seen r h; cases h
  | cons x l ih =>
    intro seen r h
    simp only [dedupRows] at h
    split at h
    · exact List.mem_cons_of_mem _ (ih h)
    · rcases List.mem_cons.1 h with rfl | h
      · exact List.mem_cons_self _ _
      · exact List.mem_cons_of_mem _ (ih h)

theorem dedupRows_keys :
    ∀ (l : List Row) (seen : List (String × String)),
      ((dedupRows l seen).map rowKey).Nodup ∧
      ∀ k ∈ (dedupRows l seen).map rowKey, k ∉ seen := by
  intro l
  induction l with
  | nil => intro seen; exact ⟨List.nodup_nil, by intro k h; cases h⟩
  | cons x l ih =>
    intro seen
    by_cases hc : rowKey x ∈ seen
    · simp only [dedupRows, if_pos hc]
      exact ih seen
    · simp only [dedupRows, if_neg hc, List.map_cons, List.nodup_cons]
      obtain ⟨hn, hns⟩ := ih (rowKey x :: seen)
      refine ⟨⟨?_, hn⟩, ?_⟩
      · intro hmem
        exact hns _ hmem (List.mem_cons_self _ _)
      · intro k hk
        rcases List.mem_cons.1 hk with rfl | hk
        · exact hc
        · intro hkseen
          exact hns k hk (List.mem_cons_of_mem _ hkseen)

theorem dedupRows_keys_complete :
    ∀ (l : List Row) (seen : List (String × String)) (k : String × String),
      k ∈ l.map rowKey → k ∈ (dedupRows l seen).map rowKey ∨ k ∈ seen := by
  intro l
  induction l with
  | nil => intro seen k h; cases h
  | cons x l ih =>
    intro seen k h
    rcases List.mem_cons.1 h with rfl | h
    · by_cases hc : rowKey x ∈ seen
      · exact Or.inr hc
      · simp only [dedupRows, if_neg hc, List.map_cons]
        exact Or.inl (List.mem_cons_self _ _)
    · by_cases hc : rowKey x ∈ seen
      · simp only [dedupRows, if_pos hc]
        exact ih seen k h
      · simp only [dedupRows, if_neg hc, List.map_cons]
        rcases ih (rowKey x :: seen) k h with hin | hin
        · exact Or.inl (List.mem_cons_of_mem _ hin)
        · rcases List.mem_cons.1 hin with rfl | hin
          · exact Or.inl (List.mem_cons_self _ _)
          · exact Or.inr hin

theorem dedupRows_mem_decomp :
    ∀ {l : List Row} {seen : List (String × String)} {r : Row}, r ∈ dedupRows l seen →
      ∃ l1 l2, l = l1 ++ r :: l2 ∧ rowKey r ∉ seen ∧ ∀ p ∈ l1, rowKey p ≠ rowKey r := by
  intro l
  induction l with
  | nil => intro seen r h; cases h
  | cons x l ih =>
    intro seen r h
    simp only [dedupRows] at h
    split at h
    · rename_i hc
      obtain ⟨l1, l2, rfl, hns, hall⟩ := ih h
      refine ⟨x :: l1, l2, rfl, hns, ?_⟩
      intro p hp
      rcases List.mem_cons.1 hp with rfl | hp
      · intro heq
        exact hns (heq ▸ hc)
      · exact hall p hp
    · rename_i hc
      rcases List.mem_cons.1 h with rfl | h
      · exact ⟨[], l, rfl, hc, by intro p hp; cases hp⟩
      · obtain ⟨l1, l2, rfl, hns, hall⟩ := ih h
        have hrx : rowKey r ≠ rowKey x := fun heq => hns (heq ▸ List.mem_cons_self _ _)
        refine ⟨x :: l1, l2, rfl, fun hmem => hns (List.mem_cons_of_mem _ hmem), ?_⟩
        intro p hp
        rcases List.mem_cons.1 hp with rfl | hp
        · exact fun heq => hrx heq.symm
        · exact hall p hp

theorem dedupRows_mem_of_first :
    ∀ (l1 : List Row) (l2 : List Row) (seen : List (String × String)) (r : Row),
      rowKey r ∉ seen → (∀ p ∈ l1, rowKey p ≠ rowKey r) →
      r ∈ dedupRows (l1 ++ r :: l2) seen := by
  intro l1
  induction l1 with
  | nil =>
    intro l2 seen r hns _
    simp only [List.nil_append, dedupRows, if_neg hns]
    exact List.mem_cons_self _ _
  | cons x l1 ih =>
    intro l2 seen r hns hall
    have hxr : rowKey x ≠ rowKey r := hall x (List.mem_cons_self _ _)
    by_cases hc : rowKey x ∈ seen
    · simp only [List.cons_append, dedupRows, if_pos hc]
      exact ih l2 seen r hns (fun p hp => hall p (List.mem_cons_of_mem _ hp))
    · simp only [List.cons_append, dedupRows, if_neg hc]
      apply List.mem_cons_of_mem
      apply ih l2 _ r _ (fun p hp => hall p (List.mem_cons_of_mem _ hp))
      intro hmem
      rcases List.mem_cons.1 hmem with heq | hmem
      · exact hxr heq.symm
      · exact hns hmem

/-! ## Row-membership lemmas -/

theorem processRecord_mem {fn : String} {rec : List Char} {r : Row}
    (h : r ∈ processRecord fn rec) :
    r.title ≠ "" ∧ emailShapedL r.email.toList := by
  simp only [processRecord] at h
  split at h
  · rename_i hcond
    rw [Bool.and_eq_true] at hcond
    obtain ⟨e, he, rfl⟩ := List.mem_map.1 h
    constructor
    · cases ht : (resolveRecord rec).title with
      | none =>
        rw [ht] at hcond
        cases hcond.1
      | some t =>
        rw [ht] at hcond
        have htne : t ≠ [] := by
          intro hx
          rw [hx] at hcond
          exact absurd hcond.1 (by decide)
        simp only [ht, Option.getD_some]
        intro hx
        apply htne
        have := congrArg String.toList hx
        rwa [List.toList_asString] at this
    · have hsh := resolveRecord_emails_shaped rec e he
      rwa [List.toList_asString]
  · cases h

theorem fileRows_mem {name : String} {text : List Char} {r : Row}
    (h : r ∈ fileRows name text) : ∃ rec, r ∈ processRecord name rec := by
  unfold fileRows at h
  split at h
  · cases h
  · obtain ⟨rows, hrows, hr⟩ := List.mem_flatten.1 h
    obtain ⟨rec, _, rfl⟩ := List.mem_map.1 hrows
    exact ⟨rec, hr⟩

theorem rawBatchRows_mem {files : List (String × List Char)} {r : Row}
    (h : r ∈ rawBatchRows files) : ∃ f ∈ files, r ∈ fileRows f.1 f.2 := by
  unfold rawBatchRows at h
  obtain ⟨rows, hrows, hr⟩ := List.mem_flatten.1 h
  obtain ⟨f, hf, rfl⟩ := List.mem_map.1 hrows
  exact ⟨f, hf, hr⟩

theorem processRecord_rowKey_map (n n' : String) (rec : List Char) :
    (processRecord n rec).map rowKey = (processRecord n' rec).map rowKey := by
  simp only [processRecord]
  split
  · rw [List.map_map, List.map_map]
    apply List.map_congr_left
    intro e _
    rfl
  · rfl

theorem fileRows_rowKey_map (n n' : String) (t : List Char) :
    (fileRows n t).map rowKey = (fileRows n' t).map rowKey := by
  unfold fileRows
  split
  · rfl
  · rw [List.map_flatten, List.map_flatten, List.map_map, List.map_map]
    congr 1
    apply List.map_congr_left
    intro rec _
    exact processRecord_rowKey_map n n' rec

/-- Processing the line `AD - Jane Doe, jane@x.org` from any state in which
jane@x.org is not yet named binds it to the full matched name span
"AD - Jane Doe" (the tier-1 pattern is applied to the whole line, so the
tag prefix is part of the name span). -/
theorem lineStep_adJane {s : RecState}
    (h : lookupAssoc s.correspondingInfo ("jane@x.org".toList) = none) :
    lookupAssoc (lineStep s ("AD - Jane Doe, jane@x.org".toList)).correspondingInfo
      ("jane@x.org".toList) = some ("AD - Jane Doe".toList) := by
  unfold lineStep
  rw [show breakSeq tvSep (pyStrip ("AD - Jane Doe, jane@x.org".toList))
      = some ("AD".toList, "Jane Doe, jane@x.org".toList) from by decide]
  dsimp only
  rw [if_pos (by decide)]
  unfold tier1
  rw [show pyStrip ("AD - Jane Doe, jane@x.org".toList)
      = "AD - Jane Doe, jane@x.org".toList from by decide]
  rw [show pairFindAll ("AD - Jane Doe, jane@x.org".toList)
      = [("AD - Jane Doe".toList, "jane@x.org".toList)] from by decide]
  rw [List.foldl_cons, List.foldl_nil]
  unfold tier1Step
  dsimp only
  rw [show lowerList ("jane@x.org".toList) = "jane@x.org".toList from by decide]
  rw [show cleanName ("AD - Jane Doe".toList) = "AD - Jane Doe".toList from by decide]
  rw [applyTag_correspondingInfo]
  rw [if_pos h]
  dsimp only
  rw [lookupAssoc_append_of_none h]
  simp [lookupAssoc]

/-! ## Claim theorems -/

/-- Claim C1, counterexample: for the entry consisting of the line
`AD - Jane Doe, jane@x.org`, the resolved correspondence map binds
jane@x.org to "AD - Jane Doe" -- including the tag prefix -- and not to
"Jane Doe" as the claim states. -/
theorem claim1_counterexample :
    lookupAssoc (resolveRecord ("AD - Jane Doe, jane@x.org".toList)).correspondingInfo
      ("jane@x.org".toList) = some ("AD - Jane Doe".toList)
    ∧ lookupAssoc (resolveRecord ("AD - Jane Doe, jane@x.org".toList)).correspondingInfo
      ("jane@x.org".toList) ≠ some ("Jane Doe".toList) := by
  constructor
  · decide
  · decide

/-- Claim C1, amended: for every entry containing the line
`AD - Jane Doe, jane@x.org`, if no earlier line of the entry already
named jane@x.org, the resolved correspondence map binds "jane@x.org" to
exactly "AD - Jane Doe": the tier-1 pattern is applied to the whole line
and its name span includes the tag prefix. -/
theorem claim1_amended (rec : List Char) (pre post : List (List Char))
    (hsplit : recordLines rec = pre ++ ("AD - Jane Doe, jane@x.org".toList) :: post)
    (hfresh : lookupAssoc ((pre.foldl lineStep initRecState)).correspondingInfo
        ("jane@x.org".toList) = none) :
    lookupAssoc (resolveRecord rec).correspondingInfo ("jane@x.org".toList)
      = some ("AD - Jane Doe".toList) := by
  unfold resolveRecord lineState
  rw [hsplit, List.foldl_append, List.foldl_cons]
  apply tier2_lookup_some
  exact foldl_preserve
    (P := fun st => lookupAssoc st.correspondingInfo ("jane@x.org".toList)
      = some ("AD - Jane Doe".toList))
    lineStep post _ (fun st a _ hh => lineStep_lookup_some hh) (lineStep_adJane hfresh)

/-- Claim C1, witness for the amended theorem at the one-line entry. -/
theorem claim1_amended_witness :
    lookupAssoc (resolveRecord ("AD - Jane Doe, jane@x.org".toList)).correspondingInfo
      ("jane@x.org".toList) = some ("AD - Jane Doe".toList) :=
  claim1_amended ("AD - Jane Doe, jane@x.org".toList) [] [] (by decide) (by decide)

/-- Claim C2: the segmenter splits exactly at occurrences of the
end-of-record marker (a newline immediately followed by `ER - `):
rejoining the fragments with the marker reconstructs the text, no
fragment contains the marker, the marker splits even when more text
follows `ER - ` on the same line (that text starts the next fragment),
and an `ER - ` in the middle of a line, not preceded by a newline, is
not a record boundary. -/
theorem claim2_segmentation (text : List Char) :
    joinSep erMarker (segmentText text) = text
    ∧ (∀ frag ∈ segmentText text, containsSeq erMarker frag = false)
    ∧ segmentText ("A\nER - 12345\nB".toList) = ["A".toList, "12345\nB".toList]
    ∧ segmentText ("a b ER - c\nd".toList) = ["a b ER - c\nd".toList] := by
  refine ⟨?_, ?_, by decide, by decide⟩
  · exact splitSeq_join (by decide) text
  · exact splitSeq_free (by decide) text

/-- Claim C2, witness at a concrete file text. -/
theorem claim2_witness :
    joinSep erMarker (segmentText ("A\nER - 12345\nB".toList)) = "A\nER - 12345\nB".toList
    ∧ containsSeq erMarker ("A".toList) = false :=
  ⟨(claim2_segmentation ("A\nER - 12345\nB".toList)).1,
   (claim2_segmentation ("A\nER - 12345\nB".toList)).2.1 ("A".toList) (by decide)⟩

/-- Claim C3: every row of a processed batch has a non-empty title and an
email-shaped email (exactly one '@' and a domain ending in a dot-separated
suffix). -/
theorem claim3_rows_shaped (files : List (String × List Char)) (r : Row)
    (h : r ∈ processBatch files) : r.title ≠ "" ∧ emailShaped r.email := by
  unfold processBatch at h
  obtain ⟨f, hf, hr⟩ := rawBatchRows_mem (dedupRows_subset h)
  obtain ⟨rec, hrec⟩ := fileRows_mem hr
  exact processRecord_mem hrec

/-- Claim C3, witness at a concrete one-file batch. -/
theorem claim3_witness : c3SampleRow.title ≠ "" ∧ emailShaped c3SampleRow.email :=
  claim3_rows_shaped [("f.ris", "T1 - A\nAD - B, b@c.de".toList)] c3SampleRow (by decide)

/-- Claim C4: the resolved name of an email is fixed by the first source
that names it -- a single tier-1 match step never rebinds an already-named
email (so when the same email recurs within tier 1 the first match wins),
once a name is bound all later lines and the tier-2 scan preserve it, an
email reached only by the tier-2 fallback is named first_author if truthy
else "N/A", and the entry `A1 - John Smith` with bare body email
john@x.org resolves john@x.org to "John Smith". -/
theorem claim4_first_naming_fixed :
    (∀ (st : RecState) (p : List Char × List Char) (e n : List Char),
        lookupAssoc st.correspondingInfo e = some n →
        lookupAssoc (tier1Step st p).correspondingInfo e = some n)
    ∧ (∀ (s : RecState) (lines : List (List Char)) (ft e n : List Char),
        lookupAssoc s.correspondingInfo e = some n →
        lookupAssoc (tier2 (lines.foldl lineStep s) ft).correspondingInfo e = some n)
    ∧ (∀ (rec e : List Char),
        e ∈ dedupKeepFirst ((emailFindAll (fullRecordText rec)).map lowerList) →
        lookupAssoc (lineState rec).correspondingInfo e = none →
        lookupAssoc (resolveRecord rec).correspondingInfo e
          = some (if pyTruthy (lineState rec).firstAuthor
                  then (lineState rec).firstAuthor.getD [] else "N/A".toList))
    ∧ lookupAssoc (resolveRecord ("A1 - John Smith\njohn@x.org".toList)).correspondingInfo
        ("john@x.org".toList) = some ("John Smith".toList) := by
  refine ⟨fun st p e n h => tier1Step_lookup_some h, ?_, ?_, by decide⟩
  · intro s lines ft e n h
    exact tier2_lookup_some
      (foldl_preserve (P := fun st => lookupAssoc st.correspondingInfo e = some n)
        lineStep lines s (fun st a _ hh => lineStep_lookup_some hh) h)
  · intro rec e hmem hnone
    obtain ⟨l1, l2, hL, hnotin⟩ := mem_first_decomp hmem
    unfold resolveRecord tier2
    rw [hL]
    exact tier2_foldl_assigns l1 l2 _ hnotin hnone

/-- Claim C4, witness: a name bound in the state survives an empty line
fold and the tier-2 scan. -/
theorem claim4_witness :
    lookupAssoc (tier2 (([] : List (List Char)).foldl lineStep
        { initRecState with correspondingInfo := [("a@b.c".toList, "X".toList)] })
        []).correspondingInfo ("a@b.c".toList) = some ("X".toList) :=
  claim4_first_naming_fixed.2.1 _ [] [] ("a@b.c".toList) ("X".toList) (by decide)

/-- Claim C5: the entry `T1 - Paper B` / `M1 - Bob; Carol, bob@lab.org
(Corresponding Author)` resolves exactly one email, bob@lab.org, named
exactly "Carol" -- the last semicolon-separated segment, with no asterisk
and without the literal annotation text -- and yields exactly that row. -/
theorem claim5_paper_b_carol :
    (resolveRecord ("T1 - Paper B\nM1 - Bob; Carol, bob@lab.org (Corresponding Author)".toList)).emailsFound
      = ["bob@lab.org".toList]
    ∧ lookupAssoc (resolveRecord
        ("T1 - Paper B\nM1 - Bob; Carol, bob@lab.org (Corresponding Author)".toList)).correspondingInfo
        ("bob@lab.org".toList) = some ("Carol".toList)
    ∧ '*' ∉ "Carol".toList
    ∧ containsSeq ("(Corresponding Author)".toList) ("Carol".toList) = false
    ∧ processRecord "f.ris"
        ("T1 - Paper B\nM1 - Bob; Carol, bob@lab.org (Corresponding Author)".toList)
      = [{ title := "Paper B", year := none, journal := none, correspondingAuthor := "Carol",
           email := "bob@lab.org", allAuthors := "", keywords := "", sourceFile := "f.ris" }] := by
  refine ⟨by decide, by decide, by decide, by decide, by decide⟩

/-- Claim C6: a batch of two files with identical content (whatever their
names) produces, after deduplication, exactly the same rows as a batch of
the first file alone. -/
theorem claim6_duplicate_idempotent (name1 name2 : String) (text : List Char) :
    processBatch [(name1, text), (name2, text)] = processBatch [(name1, text)] := by
  unfold processBatch
  have hraw2 : rawBatchRows [(name1, text), (name2, text)]
      = fileRows name1 text ++ fileRows name2 text := by
    unfold rawBatchRows
    simp
  have hraw1 : rawBatchRows [(name1, text)] = fileRows name1 text := by
    unfold rawBatchRows
    simp
  have hnil : dedupRows (fileRows name2 text) (seenAfter (fileRows name1 text) []) = [] := by
    apply dedupRows_nil_of_all_seen
    intro r hr
    have hmem : rowKey r ∈ (fileRows name2 text).map rowKey := List.mem_map_of_mem _ hr
    rw [fileRows_rowKey_map name2 name1 text] at hmem
    obtain ⟨r1, hr1, hkey⟩ := List.mem_map.1 hmem
    rw [← hkey]
    exact key_mem_seenAfter _ [] r1 hr1
  rw [hraw2, hraw1, dedupRows_append, hnil]
  simp

/-- Claim C7: an entry produces output rows exactly when it has a truthy
title and a nonempty resolved email set; in particular a titled entry with
no resolved emails, or an untitled entry with any emails, produces no rows
(and the total emission function raises nothing). -/
theorem claim7_rows_iff (fn : String) (rec : List Char) :
    processRecord fn rec ≠ [] ↔
      (pyTruthy (resolveRecord rec).title = true ∧ (resolveRecord rec).emailsFound ≠ []) := by
  simp only [processRecord]
  split
  · rename_i hcond
    rw [Bool.and_eq_true] at hcond
    have h2 : (resolveRecord rec).emailsFound ≠ [] := by
      have := hcond.2
      rwa [Bool.not_eq_eq_eq_not, Bool.not_true, List.isEmpty_eq_false] at this
    constructor
    · intro _
      exact ⟨hcond.1, h2⟩
    · intro _
      rw [Ne, List.map_eq_nil_iff]
      exact h2
  · rename_i hcond
    constructor
    · intro hx
      exact absurd rfl hx
    · rintro ⟨h1, h2⟩
      exfalso
      apply hcond
      rw [Bool.and_eq_true]
      refine ⟨h1, ?_⟩
      rw [Bool.not_eq_eq_eq_not, Bool.not_true, List.isEmpty_eq_false]
      exact h2

/-- Claim C8: within one entry, first_author is the value of the first A1
line and never changes as any further lines are processed, while every A1
line's value is appended to the authors sequence in order. -/
theorem claim8_first_author (pre : List (List Char)) (l v : List Char) (post : List (List Char))
    (hpre : ∀ x ∈ pre, a1Value? x = none) (hl : a1Value? l = some v) :
    ((pre ++ l :: post).foldl lineStep initRecState).firstAuthor = some v
    ∧ ((pre ++ l :: post).foldl lineStep initRecState).allAuthors
        = (pre ++ l :: post).filterMap a1Value? := by
  have hallA : ∀ (lines : List (List Char)) (s : RecState),
      (lines.foldl lineStep s).allAuthors = s.allAuthors ++ lines.filterMap a1Value? := by
    intro lines
    induction lines with
    | nil => intro s; simp
    | cons x xs ih =>
      intro s
      rw [List.foldl_cons, ih, lineStep_allAuthors]
      cases hx : a1Value? x <;> simp [List.filterMap_cons, hx]
  constructor
  · have hfa_pre : (pre.foldl lineStep initRecState).firstAuthor = none :=
      foldl_preserve (P := fun st => st.firstAuthor = none) lineStep pre initRecState
        (fun st a ha hh => by
          show (lineStep st a).firstAuthor = none
          rw [lineStep_firstAuthor_of_none (hpre a ha)]
          exact hh) rfl
    rw [List.foldl_append, List.foldl_cons]
    have hstep : (lineStep (pre.foldl lineStep initRecState) l).firstAuthor = some v :=
      lineStep_a1 hl (by rw [hfa_pre]; rfl)
    have hv := a1Value?_ne_nil hl
    refine foldl_preserve (P := fun st => st.firstAuthor = some v) lineStep post _
      (fun st a _ hh => ?_) hstep
    have hh' : st.firstAuthor = some v := hh
    have htr : pyTruthy st.firstAuthor = true := by
      rw [hh']
      simp [pyTruthy, hv]
    show (lineStep st a).firstAuthor = some v
    rw [lineStep_firstAuthor_of_truthy htr, hh']
  · rw [hallA]
    simp [initRecState]

/-- Claim C8, witness at a concrete three-line entry. -/
theorem claim8_witness :
    ((["T1 - X".toList] ++ ("A1 - John Smith".toList) :: ["A1 - Other".toList]).foldl
        lineStep initRecState).firstAuthor = some ("John Smith".toList)
    ∧ ((["T1 - X".toList] ++ ("A1 - John Smith".toList) :: ["A1 - Other".toList]).foldl
        lineStep initRecState).allAuthors
      = (["T1 - X".toList] ++ ("A1 - John Smith".toList) :: ["A1 - Other".toList]).filterMap
          a1Value? :=
  claim8_first_author ["T1 - X".toList] ("A1 - John Smith".toList) ("John Smith".toList)
    ["A1 - Other".toList] (by decide) (by decide)

/-- Claim C9: an all-whitespace file is reported as skipped, contributes
no rows, and the rest of the batch is processed as if the file were
absent. -/
theorem claim9_ws_file_skipped (fs1 fs2 : List (String × List Char)) (n : String)
    (t : List Char) (h : pyStrip t = []) :
    fileSkipped t = true ∧ fileRows n t = [] ∧
    processBatch (fs1 ++ (n, t) :: fs2) = processBatch (fs1 ++ fs2) := by
  have hsk : fileSkipped t = true := by
    unfold fileSkipped
    rw [h]
    rfl
  have hrows : fileRows n t = [] := by
    unfold fileRows
    rw [if_pos hsk]
  refine ⟨hsk, hrows, ?_⟩
  unfold processBatch
  have hr : rawBatchRows (fs1 ++ (n, t) :: fs2) = rawBatchRows (fs1 ++ fs2) := by
    unfold rawBatchRows
    rw [List.map_append, List.map_append, List.map_cons, List.flatten_append,
      List.flatten_append, List.flatten_cons, hrows]
    simp
  rw [hr]

/-- Claim C9, witness at a concrete two-file batch. -/
theorem claim9_witness :
    fileSkipped ("  ".toList) = true ∧ fileRows "e.ris" ("  ".toList) = [] ∧
    processBatch ([("a.ris", "T1 - A\nAD - B, b@c.de".toList)] ++ ("e.ris", "  ".toList) :: [])
      = processBatch ([("a.ris", "T1 - A\nAD - B, b@c.de".toList)] ++ []) :=
  claim9_ws_file_skipped [("a.ris", "T1 - A\nAD - B, b@c.de".toList)] [] "e.ris"
    ("  ".toList) (by decide)

/-- Claim C10: the active deduplication policy is keep-first on the
(Title, Email) key -- the final table has pairwise distinct keys, has
exactly the keys of the emitted rows, and a row is kept exactly when it
is the earliest emitted row of its key (so it carries that first
occurrence's other fields verbatim). -/
theorem claim10_dedup_policy (files : List (String × List Char)) :
    ((processBatch files).map rowKey).Nodup
    ∧ (∀ k, k ∈ (rawBatchRows files).map rowKey ↔ k ∈ (processBatch files).map rowKey)
    ∧ (∀ r : Row, r ∈ processBatch files ↔
        ∃ l1 l2, rawBatchRows files = l1 ++ r :: l2 ∧ ∀ p ∈ l1, rowKey p ≠ rowKey r) := by
  unfold processBatch
  refine ⟨(dedupRows_keys _ _).1, ?_, ?_⟩
  · intro k
    constructor
    · intro h
      rcases dedupRows_keys_complete _ [] k h with h | h
      · exact h
      · cases h
    · intro h
      obtain ⟨r, hr, rfl⟩ := List.mem_map.1 h
      exact List.mem_map_of_mem _ (dedupRows_subset hr)
  · intro r
    constructor
    · intro h
      obtain ⟨l1, l2, hL, _, hall⟩ := dedupRows_mem_decomp h
      exact ⟨l1, l2, hL, hall⟩
    · rintro ⟨l1, l2, hL, hall⟩
      rw [hL]
      exact dedupRows_mem_of_first l1 l2 [] r (by simp) hall

/-- Claim C10, witness: a key of the emitted rows of a concrete batch is a
key of the final table. -/
theorem claim10_witness :
    ("A", "b@c.de") ∈ (processBatch [("f.ris", "T1 - A\nAD - B, b@c.de".toList)]).map rowKey :=
  ((claim10_dedup_policy [("f.ris", "T1 - A\nAD - B, b@c.de".toList)]).2.1
    ("A", "b@c.de")).1 (by decide)

end Ris
